import Mathlib

/-!
Shallow embedding of the region-based raster filter in
`src/native/src/blur.cpp` (functions `clampi`, `boxBlurRGBA`,
`pixelateRGBA`, `blur_apply_regions`), together with proofs of the
spec claims about it.

Modelling choices:
* C `int` values (coordinates, dimensions, mode, strength, status) are
  modelled as unbounded `Int`; none of the verified claims depends on
  32-bit overflow.
* The RGBA byte buffer is a total function `Buf := Nat → Nat` from flat
  byte index to byte value.  A `uint8_t` store through
  `static_cast<uint8_t>` is modelled with an explicit `% 256`.
* The C loops writing a rectangular window back into the buffer are
  modelled functionally: an output byte index `i` is decoded to its
  pixel coordinates `(i / 4 % W, i / 4 / W)` and channel `i % 4`; this
  decoding inverts the C index expression `(y*W + x)*4 + c` exactly on
  in-buffer indices.
-/

namespace Blurapp

/-- `static inline int clampi(int v, int lo, int hi)` from blur.cpp. -/
def clampi (v lo hi : Int) : Int :=
  if v < lo then lo else if v > hi then hi else v

/-- `BlurRect` from blur.h: axis-aligned rectangle, `x`/`y` top-left. -/
structure BlurRect where
  x : Int
  y : Int
  w : Int
  h : Int
  deriving DecidableEq, Repr

/-- RGBA8888 pixel buffer as a flat byte-indexed function. -/
def Buf : Type := Nat → Nat

/-- x pixel coordinate decoded from a flat byte index. -/
def decodeX (W : Int) (i : Nat) : Int := ((i / 4) % W.toNat : Nat)

/-- y pixel coordinate decoded from a flat byte index. -/
def decodeY (W : Int) (i : Nat) : Int := ((i / 4) / W.toNat : Nat)

/-- Byte index `i` addresses a pixel inside the rectangle
`[x0, x1] × [y0, y1]`. -/
def inRect (W x0 x1 y0 y1 : Int) (i : Nat) : Prop :=
  x0 ≤ decodeX W i ∧ decodeX W i ≤ x1 ∧ y0 ≤ decodeY W i ∧ decodeY W i ≤ y1

instance (W x0 x1 y0 y1 : Int) (i : Nat) : Decidable (inRect W x0 x1 y0 y1 i) := by
  unfold inRect; infer_instance

/-- Scratch copy of the clamped sub-rectangle (`tmp` in `boxBlurRGBA`):
local coordinates `(yy, xx)` and channel `c` read the original buffer at
`((y0+yy)*W + (x0+xx))*4 + c`. -/
def subCopy (p : Buf) (W x0 y0 : Int) : Int → Int → Nat → Nat :=
  fun yy xx c => p (((y0 + yy) * W + (x0 + xx)) * 4 + c).toNat

/-- Horizontal pass of `boxBlurRGBA`: for each local pixel, sum the
channel over columns `xx + k`, `k ∈ [-rx, rx]`, clamped to `[0, w-1]`,
divide by the iteration count `cnt`, and store through a `uint8_t`
cast. -/
def hpass (tmp : Int → Int → Nat → Nat) (w rx : Int) : Int → Int → Nat → Nat :=
  fun yy xx c =>
    (Finset.Icc (-rx) rx).sum (fun k => tmp yy (clampi (xx + k) 0 (w - 1)) c)
      / (Finset.Icc (-rx) rx).card % 256

/-- Vertical pass of `boxBlurRGBA`: same as `hpass` but over rows of the
horizontal-pass result, radius `ry`, clamped to `[0, h-1]`. -/
def vpass (horiz : Int → Int → Nat → Nat) (h ry : Int) : Int → Int → Nat → Nat :=
  fun yy xx c =>
    (Finset.Icc (-ry) ry).sum (fun k => horiz (clampi (yy + k) 0 (h - 1)) xx c)
      / (Finset.Icc (-ry) ry).card % 256

/-- `static void boxBlurRGBA(uint8_t* p, int W, int H, int rx, int ry,
const BlurRect& r)` from blur.cpp: clamp the rectangle to the buffer,
copy the window out, run the horizontal then vertical mean passes, and
blit the result back. -/
def boxBlurRGBA (p : Buf) (W H rx0 ry0 : Int) (r : BlurRect) : Buf :=
  let rx := max 1 rx0
  let ry := max 1 ry0
  let x0 := clampi r.x 0 (W - 1)
  let y0 := clampi r.y 0 (H - 1)
  let x1 := clampi (r.x + r.w - 1) 0 (W - 1)
  let y1 := clampi (r.y + r.h - 1) 0 (H - 1)
  let w := x1 - x0 + 1
  let h := y1 - y0 + 1
  if w ≤ 0 ∨ h ≤ 0 then p
  else
    let vert := vpass (hpass (subCopy p W x0 y0) w rx) h ry
    fun i =>
      if inRect W x0 x1 y0 y1 i then
        vert (decodeY W i - y0) (decodeX W i - x0) (i % 4)
      else p i

/-- Block start coordinates of the C loop
`for (v = s; v <= e; v += bw)` (with `bw ≥ 1`). -/
def blockStarts (s e bw : Int) : List Int :=
  (List.range (if s ≤ e then ((e - s) / bw + 1).toNat else 0)).map
    (fun i : Nat => s + (i : Int) * bw)

/-- One block body of `pixelateRGBA`: per-channel integer mean over the
pixels of `[bx, ex] × [byy, ey]` read from the current buffer, then flat
fill of the block with that mean (through a `uint8_t` cast).  The
channel sums and the pixel counter are `uint32_t` in the source, so
both are reduced mod `2^32`. -/
def pixelateBlock (p : Buf) (W bx byy ex ey : Int) : Buf :=
  let cell := Finset.Icc byy ey ×ˢ Finset.Icc bx ex
  let cnt := cell.card % 2 ^ 32
  if cnt = 0 then p
  else
    fun i =>
      if inRect W bx ex byy ey i then
        cell.sum (fun q => p (((q.1 * W + q.2) * 4 + ((i % 4 : Nat) : Int)).toNat))
          % 2 ^ 32 / cnt % 256
      else p i

/-- `static void pixelateRGBA(uint8_t* p, int W, int H, int blockSize,
const BlurRect& r)` from blur.cpp: clamp the rectangle, then walk its
blocks row-major with stride `bw = max 1 blockSize`, averaging and
flat-filling each block in turn. -/
def pixelateRGBA (p : Buf) (W H blockSize : Int) (r : BlurRect) : Buf :=
  let x0 := clampi r.x 0 (W - 1)
  let y0 := clampi r.y 0 (H - 1)
  let x1 := clampi (r.x + r.w - 1) 0 (W - 1)
  let y1 := clampi (r.y + r.h - 1) 0 (H - 1)
  let bw := max 1 blockSize
  (blockStarts y0 y1 bw).foldl
    (fun buf byy =>
      (blockStarts x0 x1 bw).foldl
        (fun buf2 bx =>
          pixelateBlock buf2 W bx byy (min (bx + bw - 1) x1) (min (byy + bw - 1) y1))
        buf)
    p

/-- The region loop of `blur_apply_regions`: skip degenerate rectangles,
dispatch on `mode`, abort with status `-2` on an unsupported mode.
Returns the status and the final buffer. -/
def applyLoop (p : Buf) (width height : Int) (rs : List BlurRect)
    (mode strength : Int) : Int × Buf :=
  match rs with
  | [] => (0, p)
  | r :: rest =>
    if r.w ≤ 0 ∨ r.h ≤ 0 then applyLoop p width height rest mode strength
    else if mode = 0 then
      let rx := max 1 strength
      applyLoop (boxBlurRGBA p width height rx rx r) width height rest mode strength
    else if mode = 1 then
      let block := max 1 strength
      applyLoop (pixelateRGBA p width height block r) width height rest mode strength
    else (-2, p)

/-- `extern "C" int blur_apply_regions(...)` from blur.cpp.  A null
`pixels` or `rects` pointer is modelled by `none`; the loop reads the
first `rect_count` rectangles of the list.  Returns the status code and
the buffer after the call. -/
def blur_apply_regions (pixels : Option Buf) (width height : Int)
    (rects : Option (List BlurRect)) (rect_count : Int)
    (mode strength : Int) : Int × Option Buf :=
  match pixels with
  | none => (-1, none)
  | some p =>
    if width ≤ 0 ∨ height ≤ 0 then (-1, some p)
    else
      match rects with
      | none => (0, some p)
      | some rs =>
        if rect_count ≤ 0 then (0, some p)
        else
          let res := applyLoop p width height (rs.take rect_count.toNat) mode strength
          (res.1, some res.2)

/-- Byte index `i` is inside the clamped window of region `r` on a
`W × H` buffer. -/
def inWindow (W H : Int) (r : BlurRect) (i : Nat) : Prop :=
  inRect W (clampi r.x 0 (W - 1)) (clampi (r.x + r.w - 1) 0 (W - 1))
    (clampi r.y 0 (H - 1)) (clampi (r.y + r.h - 1) 0 (H - 1)) i

instance (W H : Int) (r : BlurRect) (i : Nat) : Decidable (inWindow W H r i) := by
  unfold inWindow; infer_instance

/-! ### Basic lemmas about `clampi` and the clamped window -/

lemma clampi_mem (v lo hi : Int) (h : lo ≤ hi) :
    lo ≤ clampi v lo hi ∧ clampi v lo hi ≤ hi := by
  unfold clampi; split_ifs <;> omega

lemma clampi_mono (v v' lo hi : Int) (h : v ≤ v') (h2 : lo ≤ hi) :
    clampi v lo hi ≤ clampi v' lo hi := by
  unfold clampi; split_ifs <;> omega

lemma clampi_of_le_lo (v lo hi : Int) (h : v ≤ lo) (h2 : lo ≤ hi) :
    clampi v lo hi = lo := by
  unfold clampi; split_ifs <;> omega

lemma clampi_of_ge_hi (v lo hi : Int) (h : hi ≤ v) (h2 : lo ≤ hi) :
    clampi v lo hi = hi := by
  unfold clampi; split_ifs <;> omega

/-- For a rectangle with positive extent on a positive-size buffer, the
clamped window is never empty. -/
lemma window_nonempty (W H : Int) (r : BlurRect) (hW : 1 ≤ W) (hH : 1 ≤ H)
    (hw : 0 < r.w) (hh : 0 < r.h) :
    clampi r.x 0 (W - 1) ≤ clampi (r.x + r.w - 1) 0 (W - 1) ∧
      clampi r.y 0 (H - 1) ≤ clampi (r.y + r.h - 1) 0 (H - 1) :=
  ⟨clampi_mono _ _ _ _ (by omega) (by omega), clampi_mono _ _ _ _ (by omega) (by omega)⟩

/-! ### Frame lemmas: the kernels write only inside the clamped window -/

lemma pixelateBlock_frame (p : Buf) (W bx byy ex ey : Int) (i : Nat)
    (h : ¬ inRect W bx ex byy ey i) : pixelateBlock p W bx byy ex ey i = p i := by
  unfold pixelateBlock
  split
  · rfl
  · exact if_neg h

lemma boxBlurRGBA_frame (p : Buf) (W H rx ry : Int) (r : BlurRect) (i : Nat)
    (h : ¬ inWindow W H r i) : boxBlurRGBA p W H rx ry r i = p i := by
  unfold boxBlurRGBA
  split
  · rfl
  · exact if_neg h

lemma blockStarts_mem (s e bw v : Int) (hbw : 1 ≤ bw)
    (hv : v ∈ blockStarts s e bw) : s ≤ v ∧ v ≤ e := by
  unfold blockStarts at hv
  simp only [List.mem_map, List.mem_range] at hv
  obtain ⟨i, hi, rfl⟩ := hv
  by_cases hse : s ≤ e
  · rw [if_pos hse] at hi
    have hq : (0 : Int) ≤ (e - s) / bw := Int.ediv_nonneg (by omega) (by omega)
    have h2 : ((e - s) / bw) * bw ≤ e - s := Int.ediv_mul_le _ (by omega)
    have hiq : (i : Int) ≤ (e - s) / bw := by omega
    have h1 : (i : Int) * bw ≤ ((e - s) / bw) * bw :=
      mul_le_mul_of_nonneg_right hiq (by omega)
    have h3 : (0 : Int) ≤ (i : Int) * bw :=
      mul_nonneg (Int.natCast_nonneg i) (by omega)
    constructor <;> omega
  · rw [if_neg hse] at hi
    exact absurd hi (Nat.not_lt_zero i)

/-- Every block the pixelate fold visits lies inside the clamped window. -/
lemma pixelate_inner_frame (W byy x1 y1 bw : Int) (i : Nat) (xs : List Int)
    (buf : Buf)
    (h : ∀ bx ∈ xs,
      ¬ inRect W bx (min (bx + bw - 1) x1) byy (min (byy + bw - 1) y1) i) :
    (xs.foldl
      (fun buf2 bx =>
        pixelateBlock buf2 W bx byy (min (bx + bw - 1) x1) (min (byy + bw - 1) y1))
      buf) i = buf i := by
  induction xs generalizing buf with
  | nil => rfl
  | cons a l ih =>
    simp only [List.foldl_cons]
    rw [ih _ (fun bx hbx => h bx (List.mem_cons_of_mem a hbx))]
    exact pixelateBlock_frame _ _ _ _ _ _ _ (h a (List.mem_cons_self a l))

lemma pixelate_outer_frame (W x0 x1 y1 bw : Int) (i : Nat) (ys : List Int)
    (buf : Buf)
    (h : ∀ byy ∈ ys, ∀ bx ∈ blockStarts x0 x1 bw,
      ¬ inRect W bx (min (bx + bw - 1) x1) byy (min (byy + bw - 1) y1) i) :
    (ys.foldl
      (fun buf0 byy =>
        (blockStarts x0 x1 bw).foldl
          (fun buf2 bx =>
            pixelateBlock buf2 W bx byy (min (bx + bw - 1) x1)
              (min (byy + bw - 1) y1))
          buf0)
      buf) i = buf i := by
  induction ys generalizing buf with
  | nil => rfl
  | cons a l ih =>
    simp only [List.foldl_cons]
    rw [ih _ (fun byy hbyy => h byy (List.mem_cons_of_mem a hbyy))]
    exact pixelate_inner_frame _ _ _ _ _ _ _ _ (h a (List.mem_cons_self a l))

lemma pixelateRGBA_frame (p : Buf) (W H bs : Int) (r : BlurRect) (i : Nat)
    (h : ¬ inWindow W H r i) : pixelateRGBA p W H bs r i = p i := by
  show (blockStarts (clampi r.y 0 (H - 1)) (clampi (r.y + r.h - 1) 0 (H - 1))
      (max 1 bs)).foldl
      (fun buf byy =>
        (blockStarts (clampi r.x 0 (W - 1)) (clampi (r.x + r.w - 1) 0 (W - 1))
          (max 1 bs)).foldl
          (fun buf2 bx =>
            pixelateBlock buf2 W bx byy
              (min (bx + max 1 bs - 1) (clampi (r.x + r.w - 1) 0 (W - 1)))
              (min (byy + max 1 bs - 1) (clampi (r.y + r.h - 1) 0 (H - 1))))
          buf)
      p i = p i
  apply pixelate_outer_frame
  intro byy hbyy bx hbx hrect
  apply h
  have hb1 : (1 : Int) ≤ max 1 bs := le_max_left _ _
  have hy := blockStarts_mem _ _ _ _ hb1 hbyy
  have hx := blockStarts_mem _ _ _ _ hb1 hbx
  obtain ⟨r1, r2, r3, r4⟩ := hrect
  refine ⟨by omega, ?_, by omega, ?_⟩
  · have : min (bx + max 1 bs - 1) (clampi (r.x + r.w - 1) 0 (W - 1)) ≤
        clampi (r.x + r.w - 1) 0 (W - 1) := min_le_right _ _
    omega
  · have : min (byy + max 1 bs - 1) (clampi (r.y + r.h - 1) 0 (H - 1)) ≤
        clampi (r.y + r.h - 1) 0 (H - 1) := min_le_right _ _
    omega

/-! ### Lemmas about the region loop -/

/-- With a supported mode the loop never aborts: the status is `0`. -/
lemma applyLoop_fst_of_supported (p : Buf) (W H : Int) (rs : List BlurRect)
    (mode s : Int) (hm : mode = 0 ∨ mode = 1) :
    (applyLoop p W H rs mode s).1 = 0 := by
  induction rs generalizing p with
  | nil => rfl
  | cons r rest ih =>
    unfold applyLoop
    rcases hm with hm | hm <;> subst hm <;> split_ifs <;>
      first
        | exact ih _
        | omega

/-- With an unsupported mode the loop never runs a kernel: the buffer
comes back untouched. -/
lemma applyLoop_snd_of_unsupported (p : Buf) (W H : Int) (rs : List BlurRect)
    (mode s : Int) (hm0 : mode ≠ 0) (hm1 : mode ≠ 1) :
    (applyLoop p W H rs mode s).2 = p := by
  induction rs generalizing p with
  | nil => rfl
  | cons r rest ih =>
    unfold applyLoop
    split_ifs with h1
    · exact ih _
    · rfl

/-- With an unsupported mode, the loop returns status `-2` as soon as
some rectangle survives the degenerate-size skip. -/
lemma applyLoop_fst_of_unsupported (p : Buf) (W H : Int) (rs : List BlurRect)
    (mode s : Int) (hm0 : mode ≠ 0) (hm1 : mode ≠ 1)
    (hpos : ∃ r ∈ rs, 0 < r.w ∧ 0 < r.h) :
    (applyLoop p W H rs mode s).1 = -2 := by
  induction rs generalizing p with
  | nil => simp at hpos
  | cons r rest ih =>
    unfold applyLoop
    split_ifs with h1
    · apply ih
      obtain ⟨r', hr', hw', hh'⟩ := hpos
      rcases List.mem_cons.mp hr' with rfl | hmem
      · omega
      · exact ⟨r', hmem, hw', hh'⟩
    · rfl

/-- Bytes outside every processed clamped window are untouched by the
loop. -/
lemma applyLoop_frame (p : Buf) (W H : Int) (rs : List BlurRect)
    (mode s : Int) (i : Nat)
    (hout : ∀ r ∈ rs, 0 < r.w → 0 < r.h → ¬ inWindow W H r i) :
    (applyLoop p W H rs mode s).2 i = p i := by
  induction rs generalizing p with
  | nil => rfl
  | cons r rest ih =>
    unfold applyLoop
    split_ifs with h1 h2 h3
    · exact ih _ (fun r' hr' => hout r' (List.mem_cons_of_mem r hr'))
    · rw [ih _ (fun r' hr' => hout r' (List.mem_cons_of_mem r hr'))]
      exact boxBlurRGBA_frame _ _ _ _ _ _ _
        (hout r (List.mem_cons_self r rest) (by omega) (by omega))
    · rw [ih _ (fun r' hr' => hout r' (List.mem_cons_of_mem r hr'))]
      exact pixelateRGBA_frame _ _ _ _ _ _
        (hout r (List.mem_cons_self r rest) (by omega) (by omega))
    · rfl

/-- Modelled from the spec's dispatch sentence: the final buffer is the
left fold, in region-list order, of the selected kernel over the
rectangles, each applied to the state left by the earlier ones
(degenerate rectangles folded as the identity). -/
def applyFold (p : Buf) (W H : Int) (rs : List BlurRect) (mode s : Int) : Buf :=
  rs.foldl
    (fun buf r =>
      if r.w ≤ 0 ∨ r.h ≤ 0 then buf
      else if mode = 0 then boxBlurRGBA buf W H (max 1 s) (max 1 s) r
      else if mode = 1 then pixelateRGBA buf W H (max 1 s) r
      else buf)
    p

/-- With a supported mode, the region loop computes exactly the left
fold of the kernels. -/
lemma applyLoop_eq_applyFold (p : Buf) (W H : Int) (rs : List BlurRect)
    (mode s : Int) (hm : mode = 0 ∨ mode = 1) :
    applyLoop p W H rs mode s = (0, applyFold p W H rs mode s) := by
  induction rs generalizing p with
  | nil => rfl
  | cons r rest ih =>
    unfold applyLoop applyFold
    simp only [List.foldl_cons]
    rcases hm with hm | hm <;> subst hm <;> split_ifs <;>
      first
        | exact ih _
        | omega

/-! ### Decoding the flat index of an in-buffer pixel -/

lemma encode_toNat (W x y : Int) (c : Nat) (hx0 : 0 ≤ x) (hy0 : 0 ≤ y)
    (hW : 0 ≤ W) :
    ((y * W + x) * 4 + c).toNat = (y.toNat * W.toNat + x.toNat) * 4 + c := by
  have hcast : (y * W + x) * 4 + (c : Int) =
      (((y.toNat * W.toNat + x.toNat) * 4 + c : Nat) : Int) := by
    push_cast [Int.toNat_of_nonneg hx0, Int.toNat_of_nonneg hy0,
      Int.toNat_of_nonneg hW]
    ring
  rw [hcast, Int.toNat_natCast]

lemma decodeX_encode (W x y : Int) (c : Nat) (hx0 : 0 ≤ x) (hxW : x < W)
    (hy0 : 0 ≤ y) (hc : c < 4) :
    decodeX W (((y * W + x) * 4 + c).toNat) = x := by
  rw [encode_toNat W x y c hx0 hy0 (by omega)]
  unfold decodeX
  have h1 : ((y.toNat * W.toNat + x.toNat) * 4 + c) / 4 =
      y.toNat * W.toNat + x.toNat := by omega
  rw [h1, mul_comm y.toNat W.toNat, Nat.mul_add_mod,
    Nat.mod_eq_of_lt (by omega)]
  omega

lemma decodeY_encode (W x y : Int) (c : Nat) (hx0 : 0 ≤ x) (hxW : x < W)
    (hy0 : 0 ≤ y) (hc : c < 4) :
    decodeY W (((y * W + x) * 4 + c).toNat) = y := by
  rw [encode_toNat W x y c hx0 hy0 (by omega)]
  unfold decodeY
  have h1 : ((y.toNat * W.toNat + x.toNat) * 4 + c) / 4 =
      y.toNat * W.toNat + x.toNat := by omega
  have hWpos : 0 < W.toNat := by omega
  rw [h1, mul_comm y.toNat W.toNat, Nat.mul_add_div hWpos,
    Nat.div_eq_of_lt (by omega)]
  omega

lemma encode_mod_four (W x y : Int) (c : Nat) (hx0 : 0 ≤ x) (hy0 : 0 ≤ y)
    (hW : 0 ≤ W) (hc : c < 4) :
    (((y * W + x) * 4 + c).toNat) % 4 = c := by
  rw [encode_toNat W x y c hx0 hy0 hW]
  omega

/-! ### Integer means of bounded values -/

lemma sum_div_card_mod {α : Type} (s : Finset α) (f : α → Nat) (hne : s.Nonempty)
    (hb : ∀ k ∈ s, f k ≤ 255) :
    s.sum f / s.card % 256 = s.sum f / s.card := by
  apply Nat.mod_eq_of_lt
  have hcard : 0 < s.card := Finset.card_pos.mpr hne
  have hsum : s.sum f ≤ s.card * 255 := by
    have := Finset.sum_le_card_nsmul s f 255 hb
    simpa [smul_eq_mul] using this
  rw [Nat.div_lt_iff_lt_mul hcard]
  omega

lemma card_Icc_radius (rx : Int) : (Finset.Icc (-rx) rx).card = (2 * rx + 1).toNat := by
  rw [Int.card_Icc]
  congr 1
  ring

/-! ### Pixelating a uniformly colored window changes nothing -/

/-- One block of a pixelate pass over a per-channel-uniform window,
applied to a buffer pointwise equal to `p`, returns `p` pointwise —
provided the block is small enough that its `uint32_t` channel
accumulator cannot wrap. -/
lemma pixelateBlock_uniform (W x0 x1 y0 y1 bx byy ex ey : Int) (p buf : Buf)
    (hx00 : 0 ≤ x0) (hx1W : x1 ≤ W - 1) (hy00 : 0 ≤ y0)
    (hbx : x0 ≤ bx) (hex : ex ≤ x1) (hby : y0 ≤ byy) (hey : ey ≤ y1)
    (hcnt255 : (Finset.Icc byy ey ×ˢ Finset.Icc bx ex).card * 255 < 2 ^ 32)
    (hbytes : ∀ j, p j < 256)
    (huni : ∀ i j, inRect W x0 x1 y0 y1 i → inRect W x0 x1 y0 y1 j →
      i % 4 = j % 4 → p i = p j)
    (hbuf : ∀ j, buf j = p j) :
    ∀ j, pixelateBlock buf W bx byy ex ey j = p j := by
  intro j
  unfold pixelateBlock
  split
  · exact hbuf j
  · beta_reduce
    by_cases hin : inRect W bx ex byy ey j
    · rw [if_pos hin]
      have hjwin : inRect W x0 x1 y0 y1 j := by
        obtain ⟨r1, r2, r3, r4⟩ := hin
        exact ⟨by omega, by omega, by omega, by omega⟩
      have hterm : ∀ q ∈ Finset.Icc byy ey ×ˢ Finset.Icc bx ex,
          buf (((q.1 * W + q.2) * 4 + ((j % 4 : Nat) : Int)).toNat) = p j := by
        intro q hq
        rw [Finset.mem_product, Finset.mem_Icc, Finset.mem_Icc] at hq
        obtain ⟨⟨hq1, hq2⟩, hq3, hq4⟩ := hq
        rw [hbuf]
        apply huni
        · refine ⟨?_, ?_, ?_, ?_⟩
          · rw [decodeX_encode W q.2 q.1 (j % 4) (by omega) (by omega)
              (by omega) (by omega)]
            omega
          · rw [decodeX_encode W q.2 q.1 (j % 4) (by omega) (by omega)
              (by omega) (by omega)]
            omega
          · rw [decodeY_encode W q.2 q.1 (j % 4) (by omega) (by omega)
              (by omega) (by omega)]
            omega
          · rw [decodeY_encode W q.2 q.1 (j % 4) (by omega) (by omega)
              (by omega) (by omega)]
            omega
        · exact hjwin
        · exact encode_mod_four W q.2 q.1 (j % 4) (by omega) (by omega)
            (by omega) (by omega)
      rw [Finset.sum_congr rfl hterm, Finset.sum_const, smul_eq_mul]
      rename_i hcnt
      have hcard0 : (Finset.Icc byy ey ×ˢ Finset.Icc bx ex).card ≠ 0 :=
        fun h0 => hcnt (by rw [h0]; rfl)
      have hcardlt : (Finset.Icc byy ey ×ˢ Finset.Icc bx ex).card < 2 ^ 32 := by
        have := Nat.le_mul_of_pos_right
          (Finset.Icc byy ey ×ˢ Finset.Icc bx ex).card (show 0 < 255 by norm_num)
        omega
      have hsumle : (Finset.Icc byy ey ×ˢ Finset.Icc bx ex).card * p j ≤
          (Finset.Icc byy ey ×ˢ Finset.Icc bx ex).card * 255 :=
        Nat.mul_le_mul_left _ (Nat.lt_succ_iff.mp (hbytes j))
      have hm1 : (Finset.Icc byy ey ×ˢ Finset.Icc bx ex).card * p j % 2 ^ 32 =
          (Finset.Icc byy ey ×ˢ Finset.Icc bx ex).card * p j :=
        Nat.mod_eq_of_lt (by omega)
      have hm2 : (Finset.Icc byy ey ×ˢ Finset.Icc bx ex).card % 2 ^ 32 =
          (Finset.Icc byy ey ×ˢ Finset.Icc bx ex).card :=
        Nat.mod_eq_of_lt hcardlt
      rw [hm1, hm2, Nat.mul_div_cancel_left _ (Nat.pos_of_ne_zero hcard0),
        Nat.mod_eq_of_lt (hbytes j)]
    · rw [if_neg hin]
      exact hbuf j

/-- A block row or column of stride `bw` capped by the window edge holds
at most `bw` pixels. -/
lemma icc_min_card_le (s lim bw : Int) (hbw : 1 ≤ bw) :
    (Finset.Icc s (min (s + bw - 1) lim)).card ≤ bw.toNat := by
  rw [Int.card_Icc]
  have := min_le_left (s + bw - 1) lim
  omega

lemma pixelate_fold_uniform_inner (W x0 x1 y0 y1 bw byy : Int) (p : Buf)
    (hx00 : 0 ≤ x0) (hx1W : x1 ≤ W - 1) (hy00 : 0 ≤ y0)
    (hby : y0 ≤ byy) (hbw : 1 ≤ bw)
    (hsmall : bw.toNat * bw.toNat * 255 < 2 ^ 32)
    (hbytes : ∀ j, p j < 256)
    (huni : ∀ i j, inRect W x0 x1 y0 y1 i → inRect W x0 x1 y0 y1 j →
      i % 4 = j % 4 → p i = p j)
    (xs : List Int) (hxs : ∀ bx ∈ xs, x0 ≤ bx)
    (buf : Buf) (hbuf : ∀ j, buf j = p j) :
    ∀ j, (xs.foldl
      (fun buf2 bx =>
        pixelateBlock buf2 W bx byy (min (bx + bw - 1) x1) (min (byy + bw - 1) y1))
      buf) j = p j := by
  induction xs generalizing buf with
  | nil => exact hbuf
  | cons a l ih =>
    simp only [List.foldl_cons]
    apply ih (fun bx hbx => hxs bx (List.mem_cons_of_mem a hbx))
    have hc255 : (Finset.Icc byy (min (byy + bw - 1) y1) ×ˢ
        Finset.Icc a (min (a + bw - 1) x1)).card * 255 < 2 ^ 32 := by
      rw [Finset.card_product]
      have h1 := icc_min_card_le byy y1 bw hbw
      have h2 := icc_min_card_le a x1 bw hbw
      have h3 : (Finset.Icc byy (min (byy + bw - 1) y1)).card *
          (Finset.Icc a (min (a + bw - 1) x1)).card * 255 ≤
          bw.toNat * bw.toNat * 255 :=
        Nat.mul_le_mul (Nat.mul_le_mul h1 h2) (le_refl 255)
      omega
    exact pixelateBlock_uniform W x0 x1 y0 y1 a byy _ _ p buf hx00 hx1W hy00
      (hxs a (List.mem_cons_self a l)) (min_le_right _ _) hby (min_le_right _ _)
      hc255 hbytes huni hbuf

lemma pixelate_fold_uniform_outer (W x0 x1 y0 y1 bw : Int) (p : Buf)
    (hx00 : 0 ≤ x0) (hx1W : x1 ≤ W - 1) (hy00 : 0 ≤ y0) (hbw : 1 ≤ bw)
    (hsmall : bw.toNat * bw.toNat * 255 < 2 ^ 32)
    (hbytes : ∀ j, p j < 256)
    (huni : ∀ i j, inRect W x0 x1 y0 y1 i → inRect W x0 x1 y0 y1 j →
      i % 4 = j % 4 → p i = p j)
    (xs : List Int) (hxs : ∀ bx ∈ xs, x0 ≤ bx)
    (ys : List Int) (hys : ∀ byy ∈ ys, y0 ≤ byy)
    (buf : Buf) (hbuf : ∀ j, buf j = p j) :
    ∀ j, (ys.foldl
      (fun buf0 byy =>
        xs.foldl
          (fun buf2 bx =>
            pixelateBlock buf2 W bx byy (min (bx + bw - 1) x1)
              (min (byy + bw - 1) y1))
          buf0)
      buf) j = p j := by
  induction ys generalizing buf with
  | nil => exact hbuf
  | cons a l ih =>
    simp only [List.foldl_cons]
    apply ih (fun byy hbyy => hys byy (List.mem_cons_of_mem a hbyy))
    exact pixelate_fold_uniform_inner W x0 x1 y0 y1 bw a p hx00 hx1W hy00
      (hys a (List.mem_cons_self a l)) hbw hsmall hbytes huni xs hxs buf hbuf

lemma blockStarts_single (s e bw : Int) (hse : s ≤ e)
    (hlt : e - s < bw) : blockStarts s e bw = [s] := by
  unfold blockStarts
  rw [if_pos hse, Int.ediv_eq_zero_of_lt (by omega) hlt]
  norm_num [List.range_succ]

lemma hpass_le (tmp : Int → Int → Nat → Nat) (w rx : Int) (yy xx : Int)
    (c : Nat) : hpass tmp w rx yy xx c ≤ 255 := by
  unfold hpass
  have := Nat.mod_lt
    ((Finset.Icc (-rx) rx).sum (fun k => tmp yy (clampi (xx + k) 0 (w - 1)) c)
      / (Finset.Icc (-rx) rx).card) (y := 256) (by norm_num)
  omega

/-- Generic mean shape of one box-blur pass: division by the exact
iteration count, with the `uint8_t` cast a no-op on byte-bounded
samples. -/
lemma pass_mean (s : Finset Int) (f : Int → Nat) (d : Int)
    (hcard : s.card = d.toNat) (hne : s.Nonempty)
    (hb : ∀ k ∈ s, f k ≤ 255) :
    s.sum f / s.card % 256 = s.sum f / d.toNat := by
  rw [← hcard]
  exact sum_div_card_mod s f hne hb

/-- When the block covers the whole clamped window, `pixelateRGBA`
degenerates to a single `pixelateBlock` over the window. -/
lemma pixelateRGBA_single_block (p : Buf) (W H block : Int) (r : BlurRect)
    (hW : 1 ≤ W) (hH : 1 ≤ H) (hw : 0 < r.w) (hh : 0 < r.h)
    (hb1 : 1 ≤ block)
    (hcw : clampi (r.x + r.w - 1) 0 (W - 1) - clampi r.x 0 (W - 1) + 1 ≤ block)
    (hch : clampi (r.y + r.h - 1) 0 (H - 1) - clampi r.y 0 (H - 1) + 1 ≤ block) :
    pixelateRGBA p W H block r =
      pixelateBlock p W (clampi r.x 0 (W - 1)) (clampi r.y 0 (H - 1))
        (clampi (r.x + r.w - 1) 0 (W - 1)) (clampi (r.y + r.h - 1) 0 (H - 1)) := by
  obtain ⟨hxx, hyy⟩ := window_nonempty W H r hW hH hw hh
  show (blockStarts (clampi r.y 0 (H - 1)) (clampi (r.y + r.h - 1) 0 (H - 1))
      (max 1 block)).foldl _ p = _
  rw [max_eq_right hb1]
  rw [blockStarts_single _ _ _ hyy (by omega),
    blockStarts_single _ _ _ hxx (by omega)]
  simp only [List.foldl_cons, List.foldl_nil]
  rw [min_eq_right (by omega), min_eq_right (by omega)]

/-- On a 4200×4200 all-255 buffer, pixelating the whole buffer as a
single 4200-pixel block fills it with 11, not 255: the `uint32_t`
channel sum `17640000 * 255 = 4498200000` wraps to `203232704`, and
`203232704 / 17640000 = 11`. -/
lemma pixelate_wrap_at_4200 :
    pixelateRGBA (fun _ => 255) 4200 4200 4200 ⟨0, 0, 4200, 4200⟩ 0 = 11 := by
  have hcl0 : clampi 0 0 (4200 - 1) = 0 := by decide
  have hcl1 : clampi (0 + 4200 - 1) 0 (4200 - 1) = 4199 := by decide
  rw [pixelateRGBA_single_block (fun _ => 255) 4200 4200 4200 ⟨0, 0, 4200, 4200⟩
    (by norm_num) (by norm_num) (by norm_num) (by norm_num) (by norm_num)
    (by decide) (by decide)]
  show pixelateBlock (fun _ => 255) 4200 (clampi 0 0 (4200 - 1))
    (clampi 0 0 (4200 - 1)) (clampi (0 + 4200 - 1) 0 (4200 - 1))
    (clampi (0 + 4200 - 1) 0 (4200 - 1)) 0 = 11
  rw [hcl0, hcl1]
  have hcard : (Finset.Icc (0 : Int) 4199 ×ˢ Finset.Icc (0 : Int) 4199).card =
      17640000 := by
    rw [Finset.card_product, Int.card_Icc]
    decide
  unfold pixelateBlock
  rw [if_neg (show ¬((Finset.Icc (0 : Int) 4199 ×ˢ
      Finset.Icc (0 : Int) 4199).card % 2 ^ 32 = 0) by rw [hcard]; norm_num)]
  rw [if_pos (show inRect 4200 0 4199 0 4199 0 by decide)]
  have hsum : (Finset.Icc (0 : Int) 4199 ×ˢ Finset.Icc (0 : Int) 4199).sum
      (fun q => (fun _ : Nat => (255 : Nat))
        (((q.1 * 4200 + q.2) * 4 + (((0 : Nat) % 4 : Nat) : Int)).toNat)) =
      4498200000 := by
    rw [Finset.sum_congr rfl
      (fun q _ => rfl : ∀ q ∈ Finset.Icc (0 : Int) 4199 ×ˢ Finset.Icc (0 : Int) 4199,
        (fun _ : Nat => (255 : Nat))
          (((q.1 * 4200 + q.2) * 4 + (((0 : Nat) % 4 : Nat) : Int)).toNat) =
          (fun _ : Int × Int => (255 : Nat)) q)]
    rw [Finset.sum_const, hcard, smul_eq_mul]
  rw [hsum, hcard]
  norm_num

/-- Unfolding of `blur_apply_regions` on a non-null buffer. -/
lemma blur_apply_regions_some (p : Buf) (W H : Int)
    (rects : Option (List BlurRect)) (count mode strength : Int) :
    blur_apply_regions (some p) W H rects count mode strength =
      if W ≤ 0 ∨ H ≤ 0 then (-1, some p)
      else
        match rects with
        | none => (0, some p)
        | some rs =>
          if count ≤ 0 then (0, some p)
          else ((applyLoop p W H (rs.take count.toNat) mode strength).1,
            some (applyLoop p W H (rs.take count.toNat) mode strength).2) := rfl

/-- Unfolding of `blur_apply_regions` on a non-null buffer of valid
dimensions with a non-null region list. -/
lemma blur_apply_regions_eval (p : Buf) (W H : Int) (rs : List BlurRect)
    (count mode strength : Int) (hWH : ¬(W ≤ 0 ∨ H ≤ 0)) :
    blur_apply_regions (some p) W H (some rs) count mode strength =
      if count ≤ 0 then (0, some p)
      else ((applyLoop p W H (rs.take count.toNat) mode strength).1,
        some (applyLoop p W H (rs.take count.toNat) mode strength).2) := by
  rw [blur_apply_regions_some, if_neg hWH]

/-! ### Claim theorems -/

/-- C6: for every valid buffer (`width > 0`, `height > 0`) and every mode
and strength, calling `blur_apply_regions` with a null region list or
with `count ≤ 0` returns status `0` and leaves the buffer byte-for-byte
unchanged. -/
theorem apply_regions_no_regions_noop (p : Buf) (W H : Int)
    (rects : Option (List BlurRect)) (count mode strength : Int)
    (hW : 1 ≤ W) (hH : 1 ≤ H) (h : rects = none ∨ count ≤ 0) :
    blur_apply_regions (some p) W H rects count mode strength = (0, some p) := by
  rcases h with rfl | hc
  · rw [blur_apply_regions_some, if_neg (show ¬(W ≤ 0 ∨ H ≤ 0) by omega)]
  · cases rects with
    | none => rw [blur_apply_regions_some, if_neg (show ¬(W ≤ 0 ∨ H ≤ 0) by omega)]
    | some rs => rw [blur_apply_regions_eval _ _ _ _ _ _ _ (by omega), if_pos hc]

theorem apply_regions_no_regions_noop_witness :
    ((1 : Int) ≤ 1) ∧
      ((none : Option (List BlurRect)) = none ∨ (5 : Int) ≤ 0) ∧
      blur_apply_regions (some (fun _ => 3)) 1 1 none 5 0 2 =
        (0, some (fun _ => 3)) :=
  ⟨le_refl 1, Or.inl rfl,
    apply_regions_no_regions_noop (fun _ => 3) 1 1 none 5 0 2 (by norm_num)
      (by norm_num) (Or.inl rfl)⟩

/-- C7: whenever the buffer is null, or `width ≤ 0`, or `height ≤ 0`,
`blur_apply_regions` returns the `InvalidBuffer` status `-1` and does
not mutate the buffer, regardless of the region list, mode and
strength. -/
theorem apply_regions_invalid_buffer (pixels : Option Buf) (W H : Int)
    (rects : Option (List BlurRect)) (count mode strength : Int)
    (h : pixels = none ∨ W ≤ 0 ∨ H ≤ 0) :
    blur_apply_regions pixels W H rects count mode strength = (-1, pixels) := by
  cases pixels with
  | none => rfl
  | some p =>
    rcases h with h | h
    · exact absurd h (by simp)
    · rw [blur_apply_regions_some, if_pos h]

theorem apply_regions_invalid_buffer_witness :
    ((none : Option Buf) = none ∨ (5 : Int) ≤ 0 ∨ (5 : Int) ≤ 0) ∧
      blur_apply_regions none 5 5 (some [⟨0, 0, 1, 1⟩]) 1 0 1 = (-1, none) :=
  ⟨Or.inl rfl,
    apply_regions_invalid_buffer none 5 5 (some [⟨0, 0, 1, 1⟩]) 1 0 1 (Or.inl rfl)⟩

/-- C10: whenever `blur_apply_regions` returns the `UnsupportedMode`
status `-2`, the buffer is byte-for-byte equal to its state before the
call: every region before the aborting one was skipped as degenerate, so
no kernel ever ran. -/
theorem unsupported_mode_no_mutation (pixels : Option Buf) (W H : Int)
    (rects : Option (List BlurRect)) (count mode strength : Int)
    (h : (blur_apply_regions pixels W H rects count mode strength).1 = -2) :
    (blur_apply_regions pixels W H rects count mode strength).2 = pixels := by
  cases pixels with
  | none => exact absurd h (by norm_num [blur_apply_regions])
  | some p =>
    by_cases hWH : W ≤ 0 ∨ H ≤ 0
    · rw [blur_apply_regions_some, if_pos hWH] at h
      exact absurd h (by norm_num)
    · cases rects with
      | none =>
        rw [blur_apply_regions_some, if_neg hWH] at h
        have h1 : (0 : Int) = -2 := h
        exact absurd h1 (by norm_num)
      | some rs =>
        rw [blur_apply_regions_eval _ _ _ _ _ _ _ hWH] at h ⊢
        by_cases hc : count ≤ 0
        · rw [if_pos hc] at h
          have h1 : (0 : Int) = -2 := h
          exact absurd h1 (by norm_num)
        · rw [if_neg hc] at h ⊢
          by_cases hm : mode = 0 ∨ mode = 1
          · have h1 : (applyLoop p W H (rs.take count.toNat) mode strength).1 = -2 := h
            rw [applyLoop_fst_of_supported _ _ _ _ _ _ hm] at h1
            exact absurd h1 (by norm_num)
          · push_neg at hm
            show some (applyLoop p W H (rs.take count.toNat) mode strength).2 = some p
            rw [applyLoop_snd_of_unsupported _ _ _ _ _ _ hm.1 hm.2]

theorem unsupported_mode_no_mutation_witness :
    ((blur_apply_regions (some (fun _ => 0)) 1 1 (some [⟨0, 0, 1, 1⟩]) 1 7 3).1
        = -2) ∧
      (blur_apply_regions (some (fun _ => 0)) 1 1 (some [⟨0, 0, 1, 1⟩]) 1 7 3).2
        = some (fun _ => 0) :=
  ⟨by decide,
    unsupported_mode_no_mutation (some (fun _ => 0)) 1 1 (some [⟨0, 0, 1, 1⟩])
      1 7 3 (by decide)⟩

/-- C2 as stated is false on the code: with a valid buffer, a non-null
region list of `count = 1` whose only rectangle is degenerate, and
`mode = 2`, the call returns `0` (the region is skipped before the mode
check), not the `UnsupportedMode` status `-2`. -/
theorem unsupported_mode_with_degenerate_regions_ok :
    (blur_apply_regions (some (fun _ => 0)) 1 1 (some [⟨0, 0, 0, 0⟩]) 1 2 3).1
        = 0 ∧
      (0 : Int) ≠ -2 :=
  ⟨by decide, by decide⟩

/-- C2 (amended): for every valid buffer, every region list in which at
least one of the first `count` rectangles has positive width and height,
and every mode outside `{0, 1}`, `blur_apply_regions` returns the
`UnsupportedMode` status `-2`, which is negative and distinct from the
`InvalidBuffer` status `-1`. -/
theorem unsupported_mode_status (p : Buf) (W H : Int) (rs : List BlurRect)
    (count mode strength : Int) (hW : 1 ≤ W) (hH : 1 ≤ H)
    (hm0 : mode ≠ 0) (hm1 : mode ≠ 1)
    (hpos : ∃ r ∈ rs.take count.toNat, 0 < r.w ∧ 0 < r.h) :
    (blur_apply_regions (some p) W H (some rs) count mode strength).1 = -2 ∧
      (-2 : Int) < 0 ∧ (-2 : Int) ≠ -1 := by
  refine ⟨?_, by norm_num, by norm_num⟩
  rw [blur_apply_regions_eval _ _ _ _ _ _ _ (show ¬(W ≤ 0 ∨ H ≤ 0) by omega)]
  by_cases hc : count ≤ 0
  · rw [Int.toNat_of_nonpos hc] at hpos
    simp at hpos
  · rw [if_neg hc]
    exact applyLoop_fst_of_unsupported _ _ _ _ _ _ hm0 hm1 hpos

theorem unsupported_mode_status_witness :
    ((1 : Int) ≤ 1) ∧ ((2 : Int) ≠ 0) ∧ ((2 : Int) ≠ 1) ∧
      (∃ r ∈ ([⟨0, 0, 1, 1⟩] : List BlurRect).take (1 : Int).toNat,
        0 < r.w ∧ 0 < r.h) ∧
      ((blur_apply_regions (some (fun _ => 0)) 1 1 (some [⟨0, 0, 1, 1⟩]) 1 2 9).1
          = -2 ∧
        (-2 : Int) < 0 ∧ (-2 : Int) ≠ -1) :=
  ⟨le_refl 1, by norm_num, by norm_num, by decide,
    unsupported_mode_status (fun _ => 0) 1 1 [⟨0, 0, 1, 1⟩] 1 2 9 (by norm_num)
      (by norm_num) (by norm_num) (by norm_num) (by decide)⟩

/-- C8: with a supported mode, the final buffer is the left fold, in
region-list order, of the selected kernel over the processed
rectangles, each applied to the buffer state left by the earlier
regions of the same call. -/
theorem apply_regions_is_left_fold (p : Buf) (W H : Int) (rs : List BlurRect)
    (count mode strength : Int) (hW : 1 ≤ W) (hH : 1 ≤ H)
    (hm : mode = 0 ∨ mode = 1) :
    blur_apply_regions (some p) W H (some rs) count mode strength =
      (0, some (applyFold p W H (rs.take count.toNat) mode strength)) := by
  rw [blur_apply_regions_eval _ _ _ _ _ _ _ (show ¬(W ≤ 0 ∨ H ≤ 0) by omega)]
  by_cases hc : count ≤ 0
  · rw [if_pos hc, Int.toNat_of_nonpos hc]
    rfl
  · rw [if_neg hc, applyLoop_eq_applyFold _ _ _ _ _ _ hm]

theorem apply_regions_is_left_fold_witness :
    ((1 : Int) ≤ 1) ∧ ((1 : Int) = 0 ∨ (1 : Int) = 1) ∧
      blur_apply_regions (some (fun _ => 0)) 1 1
          (some [⟨0, 0, 1, 1⟩, ⟨0, 0, 1, 1⟩]) 2 1 1 =
        (0, some (applyFold (fun _ => 0) 1 1
          (([⟨0, 0, 1, 1⟩, ⟨0, 0, 1, 1⟩] : List BlurRect).take (2 : Int).toNat)
          1 1)) :=
  ⟨le_refl 1, Or.inr rfl,
    apply_regions_is_left_fold (fun _ => 0) 1 1 [⟨0, 0, 1, 1⟩, ⟨0, 0, 1, 1⟩] 2 1 1
      (by norm_num) (by norm_num) (Or.inr rfl)⟩

/-- C5: on a valid buffer, every byte whose pixel lies outside the union
of the clamped windows of the non-degenerate processed regions is
unchanged by the call; degenerate regions (`w ≤ 0` or `h ≤ 0`)
contribute nothing to that union. -/
theorem apply_regions_frame (p : Buf) (W H : Int)
    (rects : Option (List BlurRect)) (count mode strength : Int) (i : Nat)
    (hW : 1 ≤ W) (hH : 1 ≤ H)
    (hout : ∀ r ∈ (rects.getD []).take count.toNat, 0 < r.w → 0 < r.h →
      ¬ inWindow W H r i) :
    ((blur_apply_regions (some p) W H rects count mode strength).2.map
      (fun b => b i)) = some (p i) := by
  cases rects with
  | none =>
    rw [blur_apply_regions_some, if_neg (show ¬(W ≤ 0 ∨ H ≤ 0) by omega)]
    rfl
  | some rs =>
    by_cases hc : count ≤ 0
    · rw [blur_apply_regions_eval _ _ _ _ _ _ _ (by omega), if_pos hc]
      rfl
    · rw [blur_apply_regions_eval _ _ _ _ _ _ _ (by omega), if_neg hc]
      exact congrArg some (applyLoop_frame _ _ _ _ _ _ _ hout)

theorem apply_regions_frame_witness :
    ((1 : Int) ≤ 2) ∧
      (∀ r ∈ ((some [⟨0, 0, 1, 1⟩] : Option (List BlurRect)).getD []).take
          (1 : Int).toNat,
        0 < r.w → 0 < r.h → ¬ inWindow 2 2 r 12) ∧
      ((blur_apply_regions (some (fun _ => 9)) 2 2 (some [⟨0, 0, 1, 1⟩]) 1 0 1).2.map
        (fun b => b 12)) = some 9 :=
  ⟨by norm_num, by decide,
    apply_regions_frame (fun _ => 9) 2 2 (some [⟨0, 0, 1, 1⟩]) 1 0 1 12
      (by norm_num) (by norm_num) (by decide)⟩

/-- C1 as stated is false on the code: the region `x=1, y=0, w=1, h=2`
lies entirely to the right of a 1×2 buffer (`x ≥ width`), yet box
blurring it with strength 1 changes byte 0 of the buffer from 0 to 85:
clamping maps the region onto the buffer's last column, not onto an
empty window. -/
theorem outside_region_mutates_buffer :
    ((1 : Int) ≤ (BlurRect.mk 1 0 1 2).x) ∧
      ((blur_apply_regions (some (fun i => if i < 4 then 0 else 255)) 1 2
          (some [⟨1, 0, 1, 2⟩]) 1 0 1).2.map (fun b => b 0)) = some 85 ∧
      (fun i : Nat => if i < 4 then (0 : Nat) else 255) 0 = 0 ∧ (85 : Nat) ≠ 0 :=
  ⟨by decide, by decide, by decide, by decide⟩

/-- C1 (amended): a region with positive width and height that lies
entirely outside the buffer clamps to a non-degenerate window of
positive area — a one-pixel-thick stripe on the nearest buffer edge
(`x0 = x1` or `y0 = y1`) — and that stripe is processed, not skipped;
under either mode, only bytes inside the clamped window can change. -/
theorem outside_region_clamps_to_edge_stripe (W H : Int) (r : BlurRect)
    (p : Buf) (rx ry bs : Int) (i : Nat)
    (hW : 1 ≤ W) (hH : 1 ≤ H) (hw : 0 < r.w) (hh : 0 < r.h)
    (hout : W ≤ r.x ∨ H ≤ r.y ∨ r.x + r.w ≤ 0 ∨ r.y + r.h ≤ 0) :
    (clampi r.x 0 (W - 1) ≤ clampi (r.x + r.w - 1) 0 (W - 1) ∧
      clampi r.y 0 (H - 1) ≤ clampi (r.y + r.h - 1) 0 (H - 1)) ∧
    (clampi r.x 0 (W - 1) = clampi (r.x + r.w - 1) 0 (W - 1) ∨
      clampi r.y 0 (H - 1) = clampi (r.y + r.h - 1) 0 (H - 1)) ∧
    (¬ inWindow W H r i →
      boxBlurRGBA p W H rx ry r i = p i ∧ pixelateRGBA p W H bs r i = p i) := by
  refine ⟨window_nonempty W H r hW hH hw hh, ?_, fun hi =>
    ⟨boxBlurRGBA_frame _ _ _ _ _ _ _ hi, pixelateRGBA_frame _ _ _ _ _ _ hi⟩⟩
  rcases hout with h | h | h | h
  · exact Or.inl (by
      rw [clampi_of_ge_hi _ _ _ (by omega) (by omega),
        clampi_of_ge_hi _ _ _ (by omega) (by omega)])
  · exact Or.inr (by
      rw [clampi_of_ge_hi _ _ _ (by omega) (by omega),
        clampi_of_ge_hi _ _ _ (by omega) (by omega)])
  · exact Or.inl (by
      rw [clampi_of_le_lo _ _ _ (by omega) (by omega),
        clampi_of_le_lo _ _ _ (by omega) (by omega)])
  · exact Or.inr (by
      rw [clampi_of_le_lo _ _ _ (by omega) (by omega),
        clampi_of_le_lo _ _ _ (by omega) (by omega)])

theorem outside_region_clamps_to_edge_stripe_witness :
    ((1 : Int) ≤ 2) ∧ (0 < (2 : Int)) ∧
      ((2 : Int) ≤ (BlurRect.mk 2 0 1 2).x ∨ (2 : Int) ≤ 0 ∨
        (2 : Int) + 1 ≤ 0 ∨ (0 : Int) + 2 ≤ 0) ∧
      ((clampi 2 0 1 ≤ clampi 2 0 1 ∧ clampi 0 0 1 ≤ clampi 1 0 1) ∧
        (clampi 2 0 1 = clampi 2 0 1 ∨ clampi 0 0 1 = clampi 1 0 1) ∧
        (¬ inWindow 2 2 ⟨2, 0, 1, 2⟩ 0 →
          boxBlurRGBA (fun _ => 7) 2 2 1 1 ⟨2, 0, 1, 2⟩ 0 = 7 ∧
            pixelateRGBA (fun _ => 7) 2 2 1 ⟨2, 0, 1, 2⟩ 0 = 7)) :=
  ⟨by norm_num, by norm_num, Or.inl (by norm_num),
    outside_region_clamps_to_edge_stripe 2 2 ⟨2, 0, 1, 2⟩ (fun _ => 7) 1 1 1 0
      (by norm_num) (by norm_num) (by norm_num) (by norm_num)
      (Or.inl (by norm_num))⟩

/-- C3: for each pixel of the clamped window, the box blur's horizontal
pass yields the truncating quotient of the sum of the scratch-copy
channel values at the clamped sample columns by exactly `2*rx + 1`, the
sample columns all lie inside the window (edge replication), and the
vertical pass satisfies the same property over rows with radius `ry` on
the horizontal-pass result. -/
theorem box_blur_pass_mean (tmp : Int → Int → Nat → Nat) (w h rx ry yy xx : Int)
    (c : Nat) (hrx : 1 ≤ rx) (hry : 1 ≤ ry) (hw : 1 ≤ w) (hh : 1 ≤ h)
    (htb : ∀ a b c', tmp a b c' ≤ 255) :
    hpass tmp w rx yy xx c =
        (Finset.Icc (-rx) rx).sum (fun k => tmp yy (clampi (xx + k) 0 (w - 1)) c)
          / (2 * rx + 1).toNat ∧
      (∀ k ∈ Finset.Icc (-rx) rx,
        0 ≤ clampi (xx + k) 0 (w - 1) ∧ clampi (xx + k) 0 (w - 1) ≤ w - 1) ∧
      vpass (hpass tmp w rx) h ry yy xx c =
        (Finset.Icc (-ry) ry).sum
            (fun k => hpass tmp w rx (clampi (yy + k) 0 (h - 1)) xx c)
          / (2 * ry + 1).toNat ∧
      (∀ k ∈ Finset.Icc (-ry) ry,
        0 ≤ clampi (yy + k) 0 (h - 1) ∧ clampi (yy + k) 0 (h - 1) ≤ h - 1) := by
  refine ⟨?_, ?_, ?_, ?_⟩
  · exact pass_mean _ _ _ (card_Icc_radius rx)
      ⟨0, Finset.mem_Icc.mpr ⟨by omega, by omega⟩⟩ (fun k _ => htb _ _ _)
  · exact fun k _ => clampi_mem _ 0 (w - 1) (by omega)
  · exact pass_mean _ _ _ (card_Icc_radius ry)
      ⟨0, Finset.mem_Icc.mpr ⟨by omega, by omega⟩⟩ (fun k _ => hpass_le _ _ _ _ _ _)
  · exact fun k _ => clampi_mem _ 0 (h - 1) (by omega)

theorem box_blur_pass_mean_witness :
    ((1 : Int) ≤ 1) ∧ ((1 : Int) ≤ 3) ∧
      (∀ a b c', (fun _ _ _ => 10 : Int → Int → Nat → Nat) a b c' ≤ 255) ∧
      (hpass (fun _ _ _ => 10) 3 1 0 0 0 =
          (Finset.Icc (-1 : Int) 1).sum
              (fun k => (fun _ _ _ => 10 : Int → Int → Nat → Nat) 0
                (clampi (0 + k) 0 (3 - 1)) 0)
            / ((2 : Int) * 1 + 1).toNat ∧
        (∀ k ∈ Finset.Icc (-1 : Int) 1,
          0 ≤ clampi (0 + k) 0 (3 - 1) ∧ clampi (0 + k) 0 (3 - 1) ≤ 3 - 1) ∧
        vpass (hpass (fun _ _ _ => 10) 3 1) 3 1 0 0 0 =
          (Finset.Icc (-1 : Int) 1).sum
              (fun k => hpass (fun _ _ _ => 10) 3 1 (clampi (0 + k) 0 (3 - 1)) 0 0)
            / ((2 : Int) * 1 + 1).toNat ∧
        (∀ k ∈ Finset.Icc (-1 : Int) 1,
          0 ≤ clampi (0 + k) 0 (3 - 1) ∧ clampi (0 + k) 0 (3 - 1) ≤ 3 - 1)) :=
  ⟨le_refl 1, by norm_num, fun _ _ _ => by norm_num,
    box_blur_pass_mean (fun _ _ _ => 10) 3 3 1 1 0 0 0 (le_refl 1) (le_refl 1)
      (by norm_num) (by norm_num) (fun _ _ _ => by norm_num)⟩

/-- C4 as stated is false on the code: on a 4200×4200 all-255 buffer,
one region covering the buffer with block size 4200 gives a single
17640000-pixel block whose `uint32_t` channel sum wraps mod `2^32`, so
the code fills the window with 11 while the true truncating mean of the
window's original pixels is 255. -/
theorem pixelate_mean_overflow :
    pixelateRGBA (fun _ => 255) 4200 4200 4200 ⟨0, 0, 4200, 4200⟩ 0 = 11 ∧
      (Finset.Icc (0 : Int) 4199 ×ˢ Finset.Icc (0 : Int) 4199).sum
          (fun _ => (255 : Nat)) / ((4200 : Nat) * 4200) = 255 ∧
      (11 : Nat) ≠ 255 := by
  refine ⟨pixelate_wrap_at_4200, ?_, by norm_num⟩
  rw [Finset.sum_const, Finset.card_product, Int.card_Icc]
  decide

/-- C4 (amended): when the pixelate block size covers the whole clamped
window (`block ≥ cw` and `block ≥ ch`) and the window is small enough
that the `uint32_t` channel accumulator cannot wrap
(`ch * cw * 255 < 2^32`), every pixel of the window is overwritten, per
channel, with the truncating integer mean of that channel over all
`ch * cw` pixels the window held before the region was processed, so
the window becomes one flat color. -/
theorem pixelate_large_block_flattens (p : Buf) (W H block : Int)
    (r : BlurRect) (i : Nat)
    (hW : 1 ≤ W) (hH : 1 ≤ H) (hw : 0 < r.w) (hh : 0 < r.h)
    (hb1 : 1 ≤ block)
    (hcw : clampi (r.x + r.w - 1) 0 (W - 1) - clampi r.x 0 (W - 1) + 1 ≤ block)
    (hch : clampi (r.y + r.h - 1) 0 (H - 1) - clampi r.y 0 (H - 1) + 1 ≤ block)
    (hsmall : (clampi (r.y + r.h - 1) 0 (H - 1) - clampi r.y 0 (H - 1) + 1).toNat *
      (clampi (r.x + r.w - 1) 0 (W - 1) - clampi r.x 0 (W - 1) + 1).toNat * 255
      < 2 ^ 32)
    (hbytes : ∀ j, p j < 256)
    (hi : inWindow W H r i) :
    pixelateRGBA p W H block r i =
      (Finset.Icc (clampi r.y 0 (H - 1)) (clampi (r.y + r.h - 1) 0 (H - 1)) ×ˢ
          Finset.Icc (clampi r.x 0 (W - 1)) (clampi (r.x + r.w - 1) 0 (W - 1))).sum
          (fun q => p (((q.1 * W + q.2) * 4 + ((i % 4 : Nat) : Int)).toNat)) /
        ((clampi (r.y + r.h - 1) 0 (H - 1) - clampi r.y 0 (H - 1) + 1).toNat *
          (clampi (r.x + r.w - 1) 0 (W - 1) - clampi r.x 0 (W - 1) + 1).toNat) := by
  obtain ⟨hxx, hyy⟩ := window_nonempty W H r hW hH hw hh
  rw [pixelateRGBA_single_block p W H block r hW hH hw hh hb1 hcw hch]
  have hmem : ((clampi r.y 0 (H - 1), clampi r.x 0 (W - 1)) : Int × Int) ∈
      Finset.Icc (clampi r.y 0 (H - 1)) (clampi (r.y + r.h - 1) 0 (H - 1)) ×ˢ
        Finset.Icc (clampi r.x 0 (W - 1)) (clampi (r.x + r.w - 1) 0 (W - 1)) := by
    rw [Finset.mem_product, Finset.mem_Icc, Finset.mem_Icc]
    exact ⟨⟨le_refl _, hyy⟩, le_refl _, hxx⟩
  unfold pixelateBlock
  unfold inWindow at hi
  set cell := Finset.Icc (clampi r.y 0 (H - 1)) (clampi (r.y + r.h - 1) 0 (H - 1)) ×ˢ
    Finset.Icc (clampi r.x 0 (W - 1)) (clampi (r.x + r.w - 1) 0 (W - 1)) with hcell
  have hcard : cell.card =
      (clampi (r.y + r.h - 1) 0 (H - 1) - clampi r.y 0 (H - 1) + 1).toNat *
        (clampi (r.x + r.w - 1) 0 (W - 1) - clampi r.x 0 (W - 1) + 1).toNat := by
    rw [hcell, Finset.card_product, Int.card_Icc, Int.card_Icc]
    have e1 : clampi (r.y + r.h - 1) 0 (H - 1) + 1 - clampi r.y 0 (H - 1) =
        clampi (r.y + r.h - 1) 0 (H - 1) - clampi r.y 0 (H - 1) + 1 := by ring
    have e2 : clampi (r.x + r.w - 1) 0 (W - 1) + 1 - clampi r.x 0 (W - 1) =
        clampi (r.x + r.w - 1) 0 (W - 1) - clampi r.x 0 (W - 1) + 1 := by ring
    rw [e1, e2]
  have h255 : cell.card * 255 < 2 ^ 32 := by rw [hcard]; exact hsmall
  have hcardlt : cell.card < 2 ^ 32 := by omega
  have hcpos : 0 < cell.card := Finset.card_pos.mpr ⟨_, hmem⟩
  rw [if_neg (show ¬(cell.card % 2 ^ 32 = 0) by rw [Nat.mod_eq_of_lt hcardlt]; omega)]
  rw [if_pos hi]
  set S := cell.sum
    (fun q => p (((q.1 * W + q.2) * 4 + ((i % 4 : Nat) : Int)).toNat)) with hS
  have hsle : S ≤ cell.card * 255 := by
    rw [hS]
    simpa [smul_eq_mul] using Finset.sum_le_card_nsmul cell _ 255
      (fun q _ => Nat.lt_succ_iff.mp (hbytes _))
  rw [Nat.mod_eq_of_lt (show S < 2 ^ 32 by omega), Nat.mod_eq_of_lt hcardlt]
  have hm3 : S / cell.card % 256 = S / cell.card := by
    apply Nat.mod_eq_of_lt
    rw [Nat.div_lt_iff_lt_mul hcpos]
    omega
  rw [hm3, hcard]

theorem pixelate_large_block_flattens_witness :
    ((1 : Int) ≤ 2) ∧ ((1 : Int) ≤ 2) ∧ (0 < (2 : Int)) ∧
      (clampi (0 + 2 - 1) 0 (2 - 1) - clampi 0 0 (2 - 1) + 1 ≤ (2 : Int)) ∧
      ((clampi (0 + 2 - 1) 0 (2 - 1) - clampi 0 0 (2 - 1) + 1).toNat *
        (clampi (0 + 2 - 1) 0 (2 - 1) - clampi 0 0 (2 - 1) + 1).toNat * 255
        < 2 ^ 32) ∧
      (∀ j, (fun j : Nat => j % 7) j < 256) ∧ inWindow 2 2 ⟨0, 0, 2, 2⟩ 0 ∧
      pixelateRGBA (fun j => j % 7) 2 2 2 ⟨0, 0, 2, 2⟩ 0 =
        (Finset.Icc (clampi 0 0 (2 - 1)) (clampi (0 + 2 - 1) 0 (2 - 1)) ×ˢ
            Finset.Icc (clampi 0 0 (2 - 1)) (clampi (0 + 2 - 1) 0 (2 - 1))).sum
            (fun q => (fun j : Nat => j % 7)
              (((q.1 * 2 + q.2) * 4 + (((0 : Nat) % 4 : Nat) : Int)).toNat)) /
          ((clampi (0 + 2 - 1) 0 (2 - 1) - clampi 0 0 (2 - 1) + 1).toNat *
            (clampi (0 + 2 - 1) 0 (2 - 1) - clampi 0 0 (2 - 1) + 1).toNat) :=
  ⟨by norm_num, by norm_num, by norm_num, by decide, by decide,
    fun j => by show j % 7 < 256; omega, by decide,
    pixelate_large_block_flattens (fun j => j % 7) 2 2 2 ⟨0, 0, 2, 2⟩ 0
      (by norm_num) (by norm_num) (by norm_num) (by norm_num) (by norm_num)
      (by decide) (by decide) (by decide)
      (fun j => by show j % 7 < 256; omega) (by decide)⟩

/-- C9 as stated is false on the code: the 4200×4200 buffer uniformly
filled with 255 is a uniformly colored window, yet pixelating it with
block size 4200 changes byte 0 from 255 to 11, because the `uint32_t`
channel accumulator wraps mod `2^32` before the division. -/
theorem pixelate_uniform_overflow :
    pixelateRGBA (fun _ => 255) 4200 4200 4200 ⟨0, 0, 4200, 4200⟩ 0 = 11 ∧
      (fun _ : Nat => (255 : Nat)) 0 = 255 ∧ (11 : Nat) ≠ 255 :=
  ⟨pixelate_wrap_at_4200, rfl, by norm_num⟩

/-- C9 (amended): pixelating a region whose clamped window holds a
single uniform color (channel values depend only on the channel) leaves
every byte of the buffer, in particular every pixel of the window,
unchanged — provided each block is small enough that its `uint32_t`
channel accumulator cannot wrap (`block² * 255 < 2^32` suffices): then
the integer mean of identical values is that value. -/
theorem pixelate_uniform_identity (p : Buf) (W H bs : Int) (r : BlurRect)
    (i : Nat) (hW : 1 ≤ W) (hH : 1 ≤ H)
    (hsmall : (max 1 bs).toNat * (max 1 bs).toNat * 255 < 2 ^ 32)
    (hbytes : ∀ j, p j < 256)
    (huni : ∀ a b, inWindow W H r a → inWindow W H r b → a % 4 = b % 4 →
      p a = p b) :
    pixelateRGBA p W H bs r i = p i := by
  unfold inWindow at huni
  show (blockStarts (clampi r.y 0 (H - 1)) (clampi (r.y + r.h - 1) 0 (H - 1))
      (max 1 bs)).foldl
      (fun buf byy =>
        (blockStarts (clampi r.x 0 (W - 1)) (clampi (r.x + r.w - 1) 0 (W - 1))
          (max 1 bs)).foldl
          (fun buf2 bx =>
            pixelateBlock buf2 W bx byy
              (min (bx + max 1 bs - 1) (clampi (r.x + r.w - 1) 0 (W - 1)))
              (min (byy + max 1 bs - 1) (clampi (r.y + r.h - 1) 0 (H - 1))))
          buf)
      p i = p i
  exact pixelate_fold_uniform_outer W (clampi r.x 0 (W - 1))
    (clampi (r.x + r.w - 1) 0 (W - 1)) (clampi r.y 0 (H - 1))
    (clampi (r.y + r.h - 1) 0 (H - 1)) (max 1 bs) p
    (clampi_mem r.x 0 (W - 1) (by omega)).1
    (clampi_mem (r.x + r.w - 1) 0 (W - 1) (by omega)).2
    (clampi_mem r.y 0 (H - 1) (by omega)).1
    (le_max_left 1 bs) hsmall hbytes huni
    _ (fun bx hbx => (blockStarts_mem _ _ _ _ (le_max_left 1 bs) hbx).1)
    _ (fun byy hbyy => (blockStarts_mem _ _ _ _ (le_max_left 1 bs) hbyy).1)
    p (fun _ => rfl) i

theorem pixelate_uniform_identity_witness :
    ((1 : Int) ≤ 2) ∧
      ((max 1 (3 : Int)).toNat * (max 1 (3 : Int)).toNat * 255 < 2 ^ 32) ∧
      (∀ j, (fun j : Nat => if j % 4 = 0 then 5 else 9) j < 256) ∧
      (∀ a b, inWindow 2 2 ⟨0, 0, 2, 2⟩ a → inWindow 2 2 ⟨0, 0, 2, 2⟩ b →
        a % 4 = b % 4 →
        (fun j : Nat => if j % 4 = 0 then 5 else 9) a =
          (fun j : Nat => if j % 4 = 0 then 5 else 9) b) ∧
      pixelateRGBA (fun j => if j % 4 = 0 then 5 else 9) 2 2 3 ⟨0, 0, 2, 2⟩ 6 =
        (fun j : Nat => if j % 4 = 0 then 5 else 9) 6 :=
  ⟨by norm_num, by decide, fun j => by dsimp only; split <;> norm_num,
    fun a b _ _ hab => by dsimp only; rw [hab],
    pixelate_uniform_identity (fun j => if j % 4 = 0 then 5 else 9) 2 2 3
      ⟨0, 0, 2, 2⟩ 6 (by norm_num) (by norm_num) (by decide)
      (fun j => by dsimp only; split <;> norm_num)
      (fun a b _ _ hab => by dsimp only; rw [hab])⟩

end Blurapp
